import Mathlib

/-!
# Library management system: the AVL index of `main.cpp`

A shallow embedding of the `AVLTree` class of `src/main.cpp` and the proofs of
its specification.

Modelling conventions.

* A `TreeNode*` is a value of the inductive type `TreeNode`; `nullptr` is
  `TreeNode.nil`.  Every node is owned by exactly one parent in the source, so
  the pointer graph is a tree and value semantics is faithful.
* A `Book*` is a value of `Book`.  Books are never written to after
  construction and never freed by the tree, so sharing a `Book*` between two
  nodes (`root->book = temp->book`) is the same as copying the record.
* The C++ `int` is modelled by `Int`.  Identifiers are only compared, and
  cached heights only go through `max`, `-` and `+ 1`; signed overflow is not
  modelled, since a cached height would have to reach `2^31 - 1` for it.
  Every statement that a function returns a tree is made for trees whose
  cached heights are correct, where the cached height is the height of the
  shape.
* Dereferencing `nullptr` is undefined behaviour in the source; the functions
  that can do so (`rightRotate`, `leftRotate` and everything that calls them)
  return `Option TreeNode`, with `none` standing for such a dereference.
* Functions that print return what they print.
-/

/-- The `Book` struct: identifier, title and author. -/
structure Book where
  ISBN : Int
  title : String
  author : String
deriving DecidableEq, Repr

/-- The `TreeNode` struct (`book`, `left`, `right`, `height`), with `nil` for
`nullptr`. -/
inductive TreeNode where
  | nil : TreeNode
  | node (book : Book) (left : TreeNode) (right : TreeNode) (height : Int) : TreeNode
deriving DecidableEq, Repr

namespace AVLTree

open TreeNode

/-- `getHeight`: 0 for `nullptr`, else the cached height. -/
def getHeight : TreeNode → Int
  | nil => 0
  | node _ _ _ h => h

/-- `getBalance`: 0 for `nullptr`, else `getHeight(left) - getHeight(right)`. -/
def getBalance : TreeNode → Int
  | nil => 0
  | node _ l r _ => getHeight l - getHeight r

/-- `rightRotate(y)`: `x = y->left` is promoted; `y` and then `x` get their
heights recomputed.  `none` when `y` or `y->left` is `nullptr`. -/
def rightRotate : TreeNode → Option TreeNode
  | node yb (node xb xl T2 _) yr _ =>
    let y := node yb T2 yr (max (getHeight T2) (getHeight yr) + 1)
    some (node xb xl y (max (getHeight xl) (getHeight y) + 1))
  | _ => none

/-- `leftRotate(x)`: `y = x->right` is promoted; `x` and then `y` get their
heights recomputed.  `none` when `x` or `x->right` is `nullptr`. -/
def leftRotate : TreeNode → Option TreeNode
  | node xb xl (node yb T2 yr _) _ =>
    let x := node xb xl T2 (max (getHeight xl) (getHeight T2) + 1)
    some (node yb x yr (max (getHeight x) (getHeight yr) + 1))
  | _ => none

/-- `balance(node)`. -/
def balance : TreeNode → Option TreeNode
  | nil => some nil
  | node b l r h =>
    let balanceFactor := getBalance (node b l r h)
    if balanceFactor > 1 then
      if getBalance l < 0 then
        (leftRotate l).bind fun l1 => rightRotate (node b l1 r h)
      else rightRotate (node b l r h)
    else if balanceFactor < -1 then
      if getBalance r > 0 then
        (rightRotate r).bind fun r1 => leftRotate (node b l r1 h)
      else leftRotate (node b l r h)
    else some (node b l r h)

/-- `insert(node, book)`. -/
def insert : TreeNode → Book → Option TreeNode
  | nil, book => some (node book nil nil 1)
  | node b l r _, book =>
    if book.ISBN < b.ISBN then
      (insert l book).bind fun l1 =>
        balance (node b l1 r (max (getHeight l1) (getHeight r) + 1))
    else if book.ISBN > b.ISBN then
      (insert r book).bind fun r1 =>
        balance (node b l r1 (max (getHeight l) (getHeight r1) + 1))
    else balance (node b l r (max (getHeight l) (getHeight r) + 1))

/-- `minNode(node)`: the leftmost node of the subtree (`nullptr` for
`nullptr`). -/
def minNode : TreeNode → TreeNode
  | nil => nil
  | node b nil r h => node b nil r h
  | node _ (node lb ll lr lh) _ _ => minNode (node lb ll lr lh)

/-- `deleteNode(root, ISBN)`.  In the one-child case `*root = *temp` makes the
node a copy of its only child; in the two-children case the node takes the
book of `minNode(root->right)` and that key is deleted from the right
subtree. -/
def deleteNode : TreeNode → Int → Option TreeNode
  | nil, _ => some nil
  | node b l r _, ISBN =>
    if ISBN < b.ISBN then
      (deleteNode l ISBN).bind fun l1 =>
        balance (node b l1 r (1 + max (getHeight l1) (getHeight r)))
    else if ISBN > b.ISBN then
      (deleteNode r ISBN).bind fun r1 =>
        balance (node b l r1 (1 + max (getHeight l) (getHeight r1)))
    else
      match l, r with
      | nil, nil => some nil
      | nil, node cb cl cr _ =>
        balance (node cb cl cr (1 + max (getHeight cl) (getHeight cr)))
      | node cb cl cr _, nil =>
        balance (node cb cl cr (1 + max (getHeight cl) (getHeight cr)))
      | node _ _ _ _, node _ _ _ _ =>
        match minNode r with
        | nil => none
        | node tb _ _ _ =>
          (deleteNode r tb.ISBN).bind fun r1 =>
            balance (node tb l r1 (1 + max (getHeight l) (getHeight r1)))

/-- `inorder(node)`: the records in the order their lines are printed. -/
def inorder : TreeNode → List Book
  | nil => []
  | node b l r _ => inorder l ++ b :: inorder r

/-- `search(node, ISBN)`: the node found (as the subtree it roots), `nil` for
`nullptr`. -/
def search : TreeNode → Int → TreeNode
  | nil, _ => nil
  | node b l r h, ISBN =>
    if b.ISBN = ISBN then node b l r h
    else if ISBN < b.ISBN then search l ISBN
    else search r ISBN

/-- `rangeSearch(node, low, high)`: the records in the order their lines are
printed. -/
def rangeSearch : TreeNode → Int → Int → List Book
  | nil, _, _ => []
  | node b l r _, low, high =>
    (if b.ISBN ≥ low ∧ b.ISBN ≤ high then [b] else [])
      ++ (if b.ISBN > low then rangeSearch l low high else [])
      ++ (if b.ISBN < high then rangeSearch r low high else [])

/-- The line written for one record by `inorder` and `rangeSearch`. -/
def bookLine (b : Book) : String :=
  "ISBN: " ++ toString b.ISBN ++ ", Title: " ++ b.title ++ ", Author: " ++ b.author ++ "\n"

/-- `addBook(ISBN, title, author)` on the tree with root `root`: the new
root. -/
def addBook (root : TreeNode) (ISBN : Int) (title author : String) : Option TreeNode :=
  insert root (Book.mk ISBN title author)

/-- `removeBook(ISBN)` on the tree with root `root`: the new root and the text
written. -/
def removeBook (root : TreeNode) (ISBN : Int) : Option (TreeNode × String) :=
  match root with
  | nil => some (nil, "The tree is empty, no book to remove!\n")
  | node b l r h =>
    (deleteNode (node b l r h) ISBN).bind fun t =>
      some (t, "Book removed successfully!\n")

/-- `displayAllBooks()`: the text written. -/
def displayAllBooks (root : TreeNode) : String :=
  match root with
  | nil => "The tree is empty. No books to display.\n"
  | node b l r h =>
    "All Books in sorted order: \n" ++ String.join ((inorder (node b l r h)).map bookLine)

/-- `displayBook(ISBN)`: the text written. -/
def displayBook (root : TreeNode) (ISBN : Int) : String :=
  match search root ISBN with
  | node b _ _ _ =>
    "Found Book - ISBN: " ++ toString b.ISBN ++ ", Title: " ++ b.title
      ++ "|| Author: " ++ b.author ++ "\n"
  | nil => "Book not found!\n"

/-- `displayBooksInRange(low, high)`: the text written. -/
def displayBooksInRange (root : TreeNode) (low high : Int) : String :=
  "Books with ISBN between " ++ toString low ++ " and " ++ toString high ++ ": \n"
    ++ String.join ((rangeSearch root low high).map bookLine)

/-- A sequence of `addBook` calls, one per record of the list, in order. -/
def addBooks : TreeNode → List Book → Option TreeNode
  | root, [] => some root
  | root, b :: bs => (addBook root b.ISBN b.title b.author).bind fun t => addBooks t bs

/-! ## The invariants of the specification -/

/-- Number of nodes. -/
def size : TreeNode → Nat
  | nil => 0
  | node _ l r _ => size l + 1 + size r

/-- The nodes of a tree, each as the subtree it roots. -/
def nodes : TreeNode → List TreeNode
  | nil => []
  | node b l r h => node b l r h :: (nodes l ++ nodes r)

/-- The records in the order node, left subtree, right subtree. -/
def preorder : TreeNode → List Book
  | nil => []
  | node b l r _ => b :: (preorder l ++ preorder r)

/-- The height of the tree as a shape: 0 for the empty tree, else one more than
the higher subtree, whatever the nodes cache. -/
def height : TreeNode → Nat
  | nil => 0
  | node _ l r _ => 1 + max (height l) (height r)

/-- BST ordering: at every node, the identifiers in the left subtree are
strictly smaller and those in the right subtree strictly greater than the
node's identifier. -/
def BSTOrdered : TreeNode → Prop
  | nil => True
  | node b l r _ =>
    (∀ x ∈ inorder l, x.ISBN < b.ISBN) ∧ (∀ x ∈ inorder r, b.ISBN < x.ISBN)
      ∧ BSTOrdered l ∧ BSTOrdered r

/-- Height correctness: every node's cached height is
`1 + max(height(left), height(right))`, with height 0 for an absent node. -/
def HeightOK : TreeNode → Prop
  | nil => True
  | node _ l r h => h = 1 + max (getHeight l) (getHeight r) ∧ HeightOK l ∧ HeightOK r

/-- AVL balance: at every node the heights of the two subtrees differ by at
most 1. -/
def Balanced : TreeNode → Prop
  | nil => True
  | node _ l r _ =>
    getHeight l - getHeight r ≤ 1 ∧ getHeight r - getHeight l ≤ 1 ∧ Balanced l ∧ Balanced r

instance decBSTOrdered : (t : TreeNode) → Decidable (BSTOrdered t)
  | nil => isTrue trivial
  | node b l r _ =>
    have := decBSTOrdered l
    have := decBSTOrdered r
    inferInstanceAs (Decidable ((∀ x ∈ inorder l, x.ISBN < b.ISBN)
      ∧ (∀ x ∈ inorder r, b.ISBN < x.ISBN) ∧ BSTOrdered l ∧ BSTOrdered r))

instance decHeightOK : (t : TreeNode) → Decidable (HeightOK t)
  | nil => isTrue trivial
  | node _ l r h =>
    have := decHeightOK l
    have := decHeightOK r
    inferInstanceAs (Decidable (h = 1 + max (getHeight l) (getHeight r)
      ∧ HeightOK l ∧ HeightOK r))

instance decBalanced : (t : TreeNode) → Decidable (Balanced t)
  | nil => isTrue trivial
  | node _ l r _ =>
    have := decBalanced l
    have := decBalanced r
    inferInstanceAs (Decidable (getHeight l - getHeight r ≤ 1
      ∧ getHeight r - getHeight l ≤ 1 ∧ Balanced l ∧ Balanced r))

/-- One call of the public interface that changes the tree. -/
inductive Op where
  | add (ISBN : Int) (title author : String) : Op
  | remove (ISBN : Int) : Op
deriving DecidableEq, Repr

/-- The root after one call. -/
def applyOp (root : TreeNode) : Op → Option TreeNode
  | Op.add ISBN title author => addBook root ISBN title author
  | Op.remove ISBN => (removeBook root ISBN).map Prod.fst

/-- The root after a sequence of calls, in order. -/
def runOps : TreeNode → List Op → Option TreeNode
  | root, [] => some root
  | root, op :: ops => (applyOp root op).bind fun t => runOps t ops

/-- The trees the public interface can produce: what some sequence of
`addBook` and `removeBook` calls makes of the empty tree. -/
def Reachable (t : TreeNode) : Prop := ∃ ops, runOps nil ops = some t

/-- A record with the given identifier, for the worked examples. -/
def sampleBook (k : Int) : Book := Book.mk k "title" "author"

/-- The tree `20 (10, 30)` of the scenarios, with correct cached heights. -/
def sampleTree : TreeNode :=
  node (sampleBook 20) (node (sampleBook 10) nil nil 1) (node (sampleBook 30) nil nil 1) 2

/-- The tree that `addBook` builds from 50, 30, 70, 20, 40 in that order. -/
def scenarioTree : TreeNode :=
  node (sampleBook 50)
    (node (sampleBook 30) (node (sampleBook 20) nil nil 1) (node (sampleBook 40) nil nil 1) 2)
    (node (sampleBook 70) nil nil 1) 3

/-! ## Rotations and `balance` -/

@[simp] theorem getHeight_nil : getHeight nil = 0 := rfl

@[simp] theorem getHeight_node (b : Book) (l r : TreeNode) (h : Int) :
    getHeight (node b l r h) = h := rfl

@[simp] theorem getBalance_nil : getBalance nil = 0 := rfl

@[simp] theorem getBalance_node (b : Book) (l r : TreeNode) (h : Int) :
    getBalance (node b l r h) = getHeight l - getHeight r := rfl

theorem rightRotate_inorder {t t1 : TreeNode} (h : rightRotate t = some t1) :
    inorder t1 = inorder t := by
  unfold rightRotate at h
  split at h
  · simp at h; subst h; simp [inorder]
  · simp at h

theorem leftRotate_inorder {t t1 : TreeNode} (h : leftRotate t = some t1) :
    inorder t1 = inorder t := by
  unfold leftRotate at h
  split at h
  · simp at h; subst h; simp [inorder]
  · simp at h

theorem balance_inorder {t t1 : TreeNode} (h : balance t = some t1) :
    inorder t1 = inorder t := by
  cases t with
  | nil => simp [balance] at h; subst h; rfl
  | node b l r ht =>
    simp only [balance] at h
    split_ifs at h
    · obtain ⟨l1, hl1, h2⟩ := Option.bind_eq_some.mp h
      rw [rightRotate_inorder h2]; simp [inorder, leftRotate_inorder hl1]
    · exact rightRotate_inorder h
    · obtain ⟨r1, hr1, h2⟩ := Option.bind_eq_some.mp h
      rw [leftRotate_inorder h2]; simp [inorder, rightRotate_inorder hr1]
    · exact leftRotate_inorder h
    · simp at h; subst h; rfl

theorem balance_of_le_one {b : Book} {l r : TreeNode} {h : Int}
    (h1 : getHeight l - getHeight r ≤ 1) (h2 : getHeight r - getHeight l ≤ 1) :
    balance (node b l r h) = some (node b l r h) := by
  have e1 : ¬ (getHeight l - getHeight r > 1) := by omega
  have e2 : ¬ (getHeight l - getHeight r < -1) := by omega
  simp [balance, e1, e2]

theorem heightOK_getHeight {t : TreeNode} (h : HeightOK t) : 0 ≤ getHeight t := by
  induction t with
  | nil => simp
  | node b l r ht ihl ihr =>
    obtain ⟨e, hl, hr⟩ := h
    have := ihl hl
    have := ihr hr
    simp only [getHeight_node]; omega

theorem balance_heightOK {b : Book} {l r : TreeNode} {h : Int}
    (hk : HeightOK (node b l r h)) :
    ∃ t1, balance (node b l r h) = some t1 ∧ HeightOK t1 := by
  obtain ⟨h0, hl, hr⟩ := hk
  have gl := heightOK_getHeight hl
  have gr := heightOK_getHeight hr
  simp only [balance, getBalance_node]
  split_ifs with c1 c2 c3 c4
  · cases l with
    | nil => simp at c1; omega
    | node lb ll lr lh =>
      obtain ⟨_, hll, hlr⟩ := hl
      have gll := heightOK_getHeight hll
      cases lr with
      | nil => simp at c2; omega
      | node mb ml mr mh =>
        obtain ⟨_, hml, hmr⟩ := hlr
        refine ⟨_, rfl, ?_⟩
        simp only [HeightOK, getHeight_node]
        refine ⟨?_, ⟨?_, hll, hml⟩, ?_, hmr, hr⟩ <;> omega
  · cases l with
    | nil => simp at c1; omega
    | node lb ll lr lh =>
      obtain ⟨_, hll, hlr⟩ := hl
      refine ⟨_, rfl, ?_⟩
      simp only [HeightOK, getHeight_node]
      refine ⟨?_, hll, ?_, hlr, hr⟩ <;> omega
  · cases r with
    | nil => simp at c3; omega
    | node rb rl rr rh =>
      obtain ⟨_, hrl, hrr⟩ := hr
      have grr := heightOK_getHeight hrr
      cases rl with
      | nil => simp at c4; omega
      | node mb ml mr mh =>
        obtain ⟨_, hml, hmr⟩ := hrl
        refine ⟨_, rfl, ?_⟩
        simp only [HeightOK, getHeight_node]
        refine ⟨?_, ⟨?_, hl, hml⟩, ?_, hmr, hrr⟩ <;> omega
  · cases r with
    | nil => simp at c3; omega
    | node rb rl rr rh =>
      obtain ⟨_, hrl, hrr⟩ := hr
      refine ⟨_, rfl, ?_⟩
      simp only [HeightOK, getHeight_node]
      refine ⟨?_, ⟨?_, hl, hrl⟩, hrr⟩ <;> omega
  · exact ⟨_, rfl, h0, hl, hr⟩

/-- The local effect of `balance` on a node whose subtrees are balanced with
correct heights and differ in height by at most 2. -/
theorem balance_avl {b : Book} {l r : TreeNode} {h : Int}
    (hl : HeightOK l) (hr : HeightOK r) (bl : Balanced l) (br : Balanced r)
    (h0 : h = 1 + max (getHeight l) (getHeight r))
    (d1 : getHeight l - getHeight r ≤ 2) (d2 : getHeight r - getHeight l ≤ 2) :
    ∃ t1, balance (node b l r h) = some t1 ∧ HeightOK t1 ∧ Balanced t1
      ∧ (getHeight t1 = h ∨ (getHeight t1 + 1 = h
          ∧ (getHeight l - getHeight r = 2 ∨ getHeight r - getHeight l = 2))) := by
  have gl := heightOK_getHeight hl
  have gr := heightOK_getHeight hr
  simp only [balance, getBalance_node]
  split_ifs with c1 c2 c3 c4
  · cases l with
    | nil => simp at c1; omega
    | node lb ll lr lh =>
      obtain ⟨_, hll, hlr⟩ := hl
      obtain ⟨_, _, bll, blr⟩ := bl
      have gll := heightOK_getHeight hll
      cases lr with
      | nil => simp at c2; omega
      | node mb ml mr mh =>
        obtain ⟨_, hml, hmr⟩ := hlr
        obtain ⟨_, _, bml, bmr⟩ := blr
        have := heightOK_getHeight hml
        have := heightOK_getHeight hmr
        refine ⟨_, rfl, ?_⟩
        simp only [HeightOK, Balanced, getHeight_node, getBalance_node] at *
        refine ⟨⟨?_, ⟨?_, hll, hml⟩, ?_, hmr, hr⟩,
          ⟨?_, ?_, ⟨?_, ?_, bll, bml⟩, ?_, ?_, bmr, br⟩, ?_⟩ <;> omega
  · cases l with
    | nil => simp at c1; omega
    | node lb ll lr lh =>
      obtain ⟨_, hll, hlr⟩ := hl
      obtain ⟨_, _, bll, blr⟩ := bl
      have := heightOK_getHeight hll
      have := heightOK_getHeight hlr
      refine ⟨_, rfl, ?_⟩
      simp only [HeightOK, Balanced, getHeight_node, getBalance_node] at *
      refine ⟨⟨?_, hll, ?_, hlr, hr⟩, ⟨?_, ?_, bll, ?_, ?_, blr, br⟩, ?_⟩ <;> omega
  · cases r with
    | nil => simp at c3; omega
    | node rb rl rr rh =>
      obtain ⟨_, hrl, hrr⟩ := hr
      obtain ⟨_, _, brl, brr⟩ := br
      have grr := heightOK_getHeight hrr
      cases rl with
      | nil => simp at c4; omega
      | node mb ml mr mh =>
        obtain ⟨_, hml, hmr⟩ := hrl
        obtain ⟨_, _, bml, bmr⟩ := brl
        have := heightOK_getHeight hml
        have := heightOK_getHeight hmr
        refine ⟨_, rfl, ?_⟩
        simp only [HeightOK, Balanced, getHeight_node, getBalance_node] at *
        refine ⟨⟨?_, ⟨?_, hl, hml⟩, ?_, hmr, hrr⟩,
          ⟨?_, ?_, ⟨?_, ?_, bl, bml⟩, ?_, ?_, bmr, brr⟩, ?_⟩ <;> omega
  · cases r with
    | nil => simp at c3; omega
    | node rb rl rr rh =>
      obtain ⟨_, hrl, hrr⟩ := hr
      obtain ⟨_, _, brl, brr⟩ := br
      have := heightOK_getHeight hrl
      have := heightOK_getHeight hrr
      refine ⟨_, rfl, ?_⟩
      simp only [HeightOK, Balanced, getHeight_node, getBalance_node] at *
      refine ⟨⟨?_, ⟨?_, hl, hrl⟩, hrr⟩, ⟨?_, ?_, ⟨?_, ?_, bl, brl⟩, brr⟩, ?_⟩ <;> omega
  · refine ⟨_, rfl, ⟨h0, hl, hr⟩, ⟨by omega, by omega, bl, br⟩, Or.inl rfl⟩

/-! ## Insertion -/

theorem insert_heightOK (r : Book) {t : TreeNode} (hk : HeightOK t) :
    ∃ t1, insert t r = some t1 ∧ HeightOK t1 := by
  induction t with
  | nil => exact ⟨_, rfl, by simp [HeightOK]⟩
  | node b l rt h ihl ihr =>
    obtain ⟨_, hl, hr⟩ := hk
    simp only [insert]
    split_ifs
    · obtain ⟨l1, e, n1⟩ := ihl hl
      rw [e]
      exact balance_heightOK ⟨by omega, n1, hr⟩
    · obtain ⟨r1, e, n1⟩ := ihr hr
      rw [e]
      exact balance_heightOK ⟨by omega, hl, n1⟩
    · exact balance_heightOK ⟨by omega, hl, hr⟩

theorem insert_avl (r : Book) {t : TreeNode} (hk : HeightOK t) (hb : Balanced t) :
    ∃ t1, insert t r = some t1 ∧ HeightOK t1 ∧ Balanced t1
      ∧ (getHeight t1 = getHeight t ∨ getHeight t1 = getHeight t + 1) := by
  induction t with
  | nil => exact ⟨_, rfl, by simp [HeightOK], by simp [Balanced], by simp⟩
  | node b l rt h ihl ihr =>
    obtain ⟨h0, hl, hr⟩ := hk
    obtain ⟨d1, d2, bl, br⟩ := hb
    simp only [insert, getHeight_node]
    split_ifs
    · obtain ⟨l1, e, k1, b1, g1⟩ := ihl hl bl
      rw [e]
      obtain ⟨t1, e1, k2, b2, g2⟩ := balance_avl (b := b) k1 hr b1 br
        (show max (getHeight l1) (getHeight rt) + 1 = 1 + max (getHeight l1) (getHeight rt) by omega)
        (by omega) (by omega)
      exact ⟨t1, e1, k2, b2, by omega⟩
    · obtain ⟨r1, e, k1, b1, g1⟩ := ihr hr br
      rw [e]
      obtain ⟨t1, e1, k2, b2, g2⟩ := balance_avl (b := b) hl k1 bl b1
        (show max (getHeight l) (getHeight r1) + 1 = 1 + max (getHeight l) (getHeight r1) by omega)
        (by omega) (by omega)
      exact ⟨t1, e1, k2, b2, by omega⟩
    · obtain ⟨t1, e1, k2, b2, g2⟩ := balance_avl (b := b) hl hr bl br
        (show max (getHeight l) (getHeight rt) + 1 = 1 + max (getHeight l) (getHeight rt) by omega)
        (by omega) (by omega)
      exact ⟨t1, e1, k2, b2, by omega⟩

/-! ## Ordering and the in-order listing -/

theorem bstOrdered_iff_pairwise (t : TreeNode) :
    BSTOrdered t ↔ (inorder t).Pairwise (fun a b => a.ISBN < b.ISBN) := by
  induction t with
  | nil => simp [BSTOrdered, inorder]
  | node b l r h ihl ihr =>
    simp only [BSTOrdered, inorder, List.pairwise_append, List.pairwise_cons, ihl, ihr]
    constructor
    · rintro ⟨h1, h2, pl, pr⟩
      refine ⟨pl, ⟨h2, pr⟩, ?_⟩
      intro x hx y hy
      rcases List.mem_cons.mp hy with rfl | hy
      · exact h1 x hx
      · exact lt_trans (h1 x hx) (h2 y hy)
    · rintro ⟨pl, ⟨h2, pr⟩, h3⟩
      exact ⟨fun x hx => h3 x hx b (List.mem_cons_self _ _), h2, pl, pr⟩

theorem pairwise_key_unique {xs : List Book}
    (pw : xs.Pairwise (fun a b => a.ISBN < b.ISBN)) {x y : Book} (hx : x ∈ xs)
    (hy : y ∈ xs) (e : x.ISBN = y.ISBN) : x = y := by
  induction xs with
  | nil => simp at hx
  | cons a as ih =>
    obtain ⟨h1, h2⟩ := List.pairwise_cons.mp pw
    rcases List.mem_cons.mp hx with ex | mx <;> rcases List.mem_cons.mp hy with ey | my
    · rw [ex, ey]
    · have := h1 y my; rw [ex] at e; omega
    · have := h1 x mx; rw [ey] at e; omega
    · exact ih h2 mx my

theorem size_eq_length (t : TreeNode) : size t = (inorder t).length := by
  induction t with
  | nil => rfl
  | node b l r h ihl ihr => simp [size, inorder, ihl, ihr]; omega

/-- The listing after `insert`: unchanged when the identifier is already
stored, otherwise the new record sits between the smaller and the greater
ones. -/
theorem insert_inorder (r : Book) {t t1 : TreeNode} (hb : BSTOrdered t)
    (e : insert t r = some t1) :
    ((∃ x ∈ inorder t, x.ISBN = r.ISBN) ∧ inorder t1 = inorder t) ∨
    ((∀ x ∈ inorder t, x.ISBN ≠ r.ISBN) ∧ ∃ pre post, inorder t = pre ++ post
      ∧ inorder t1 = pre ++ r :: post ∧ (∀ x ∈ pre, x.ISBN < r.ISBN)
      ∧ (∀ x ∈ post, r.ISBN < x.ISBN)) := by
  induction t generalizing t1 with
  | nil =>
    simp only [insert, Option.some.injEq] at e
    subst e
    exact Or.inr ⟨by simp [inorder], [], [], by simp [inorder]⟩
  | node b l rt h ihl ihr =>
    obtain ⟨o1, o2, bl, br⟩ := hb
    simp only [insert] at e
    split_ifs at e with c1 c2
    · obtain ⟨l1, el, e2⟩ := Option.bind_eq_some.mp e
      have io := balance_inorder e2
      simp only [inorder] at io ⊢
      rcases ihl bl el with ⟨⟨x, hx, hxe⟩, hio⟩ | ⟨hne, pre, post, e1, e3, hpre, hpost⟩
      · exact Or.inl ⟨⟨x, List.mem_append_left _ hx, hxe⟩, by rw [io, hio]⟩
      · refine Or.inr ⟨?_, pre, post ++ b :: inorder rt, by simp [e1], by simp [io, e3],
          hpre, ?_⟩
        · intro x hx
          rcases List.mem_append.mp hx with hx | hx
          · exact hne x hx
          · rcases List.mem_cons.mp hx with rfl | hx
            · omega
            · have := o2 x hx; omega
        · intro x hx
          rcases List.mem_append.mp hx with hx | hx
          · exact hpost x hx
          · rcases List.mem_cons.mp hx with rfl | hx
            · exact c1
            · have := o2 x hx; omega
    · obtain ⟨r1, er, e2⟩ := Option.bind_eq_some.mp e
      have io := balance_inorder e2
      simp only [inorder] at io ⊢
      rcases ihr br er with ⟨⟨x, hx, hxe⟩, hio⟩ | ⟨hne, pre, post, e1, e3, hpre, hpost⟩
      · exact Or.inl ⟨⟨x, List.mem_append_right _ (List.mem_cons_of_mem _ hx), hxe⟩,
          by rw [io, hio]⟩
      · refine Or.inr ⟨?_, inorder l ++ b :: pre, post, by simp [e1], by simp [io, e3],
          ?_, hpost⟩
        · intro x hx
          rcases List.mem_append.mp hx with hx | hx
          · have := o1 x hx; omega
          · rcases List.mem_cons.mp hx with rfl | hx
            · omega
            · exact hne x hx
        · intro x hx
          rcases List.mem_append.mp hx with hx | hx
          · have := o1 x hx; omega
          · rcases List.mem_cons.mp hx with rfl | hx
            · exact c2
            · exact hpre x hx
    · have io := balance_inorder e
      simp only [inorder] at io ⊢
      exact Or.inl ⟨⟨b, by simp, by omega⟩, io⟩

theorem insert_bstOrdered (r : Book) {t t1 : TreeNode} (hb : BSTOrdered t)
    (e : insert t r = some t1) : BSTOrdered t1 := by
  have hp := (bstOrdered_iff_pairwise t).mp hb
  rw [bstOrdered_iff_pairwise]
  rcases insert_inorder r hb e with ⟨_, hio⟩ | ⟨_, pre, post, e1, e2, hpre, hpost⟩
  · rw [hio]; exact hp
  · rw [e1, List.pairwise_append] at hp
    obtain ⟨p1, p2, p3⟩ := hp
    rw [e2, List.pairwise_append, List.pairwise_cons]
    refine ⟨p1, ⟨hpost, p2⟩, ?_⟩
    intro x hx y hy
    rcases List.mem_cons.mp hy with rfl | hy
    · exact hpre x hx
    · exact p3 x hx y hy

/-! ## Search -/

theorem mem_nodes_inorder {s t : TreeNode} (h : s ∈ nodes t) :
    ∃ b l r ht, s = node b l r ht ∧ b ∈ inorder t := by
  induction t with
  | nil => simp [nodes] at h
  | node b l r ht ihl ihr =>
    simp only [nodes, List.mem_cons, List.mem_append] at h
    rcases h with rfl | h | h
    · exact ⟨b, l, r, ht, rfl, by simp [inorder]⟩
    · obtain ⟨b1, l1, r1, h1, e, m⟩ := ihl h
      exact ⟨b1, l1, r1, h1, e, by simp [inorder, m]⟩
    · obtain ⟨b1, l1, r1, h1, e, m⟩ := ihr h
      exact ⟨b1, l1, r1, h1, e, by simp [inorder, m]⟩

theorem search_of_not_mem {t : TreeNode} {k : Int} (h : ∀ x ∈ inorder t, x.ISBN ≠ k) :
    search t k = nil := by
  induction t with
  | nil => rfl
  | node b l r ht ihl ihr =>
    have hb : b.ISBN ≠ k := h b (by simp [inorder])
    simp only [search, hb, if_false]
    split_ifs
    · exact ihl fun x hx => h x (by simp [inorder, hx])
    · exact ihr fun x hx => h x (by simp [inorder, hx])

theorem search_of_mem {t : TreeNode} {k : Int} (hb : BSTOrdered t)
    (h : ∃ x ∈ inorder t, x.ISBN = k) :
    ∃ b l r ht, search t k = node b l r ht ∧ b.ISBN = k ∧ node b l r ht ∈ nodes t := by
  induction t with
  | nil => simp [inorder] at h
  | node b l r ht ihl ihr =>
    obtain ⟨o1, o2, bl, br⟩ := hb
    obtain ⟨x, hx, hxk⟩ := h
    simp only [search]
    split_ifs with c1 c2
    · exact ⟨b, l, r, ht, rfl, c1, by simp [nodes]⟩
    · simp only [inorder, List.mem_append, List.mem_cons] at hx
      rcases hx with hx | rfl | hx
      · obtain ⟨b1, l1, r1, h1, e, ek, m⟩ := ihl bl ⟨x, hx, hxk⟩
        exact ⟨b1, l1, r1, h1, e, ek, by simp [nodes, m]⟩
      · exact absurd hxk c1
      · have := o2 x hx; omega
    · simp only [inorder, List.mem_append, List.mem_cons] at hx
      rcases hx with hx | rfl | hx
      · have := o1 x hx; omega
      · exact absurd hxk c1
      · obtain ⟨b1, l1, r1, h1, e, ek, m⟩ := ihr br ⟨x, hx, hxk⟩
        exact ⟨b1, l1, r1, h1, e, ek, by simp [nodes, m]⟩

/-! ## Deletion -/

theorem minNode_spec (b : Book) (l r : TreeNode) (h : Int) :
    ∃ tb tr th rest, minNode (node b l r h) = node tb nil tr th
      ∧ inorder (node b l r h) = tb :: rest := by
  induction l generalizing b r h with
  | nil => exact ⟨b, r, h, inorder r, rfl, by simp [inorder]⟩
  | node lb ll lr lh ihl _ =>
    obtain ⟨tb, tr, th, rest, e, io⟩ := ihl lb lr lh
    refine ⟨tb, tr, th, rest ++ b :: inorder r, ?_, ?_⟩
    · simp only [minNode]; exact e
    · simp only [inorder] at io ⊢
      simp [io]

theorem deleteNode_heightOK (k : Int) {t : TreeNode} (hk : HeightOK t) :
    ∃ t1, deleteNode t k = some t1 ∧ HeightOK t1 := by
  induction t generalizing k with
  | nil => exact ⟨_, rfl, trivial⟩
  | node b l rt h ihl ihr =>
    obtain ⟨_, hl, hr⟩ := hk
    simp only [deleteNode]
    split_ifs
    · obtain ⟨l1, e, n1⟩ := ihl k hl
      rw [e]
      exact balance_heightOK ⟨rfl, n1, hr⟩
    · obtain ⟨r1, e, n1⟩ := ihr k hr
      rw [e]
      exact balance_heightOK ⟨rfl, hl, n1⟩
    · cases l with
      | nil =>
        cases rt with
        | nil => exact ⟨_, rfl, trivial⟩
        | node cb cl cr ch => exact balance_heightOK ⟨rfl, hr.2.1, hr.2.2⟩
      | node cb cl cr ch =>
        cases rt with
        | nil => exact balance_heightOK ⟨rfl, hl.2.1, hl.2.2⟩
        | node db dl dr dh =>
          obtain ⟨tb, tr, th, rest, em, _⟩ := minNode_spec db dl dr dh
          obtain ⟨r1, e, n1⟩ := ihr tb.ISBN hr
          simp only [em, e]
          exact balance_heightOK ⟨rfl, hl, n1⟩

theorem deleteNode_avl (k : Int) {t : TreeNode} (hk : HeightOK t) (hb : Balanced t) :
    ∃ t1, deleteNode t k = some t1 ∧ HeightOK t1 ∧ Balanced t1
      ∧ (getHeight t1 = getHeight t ∨ getHeight t1 + 1 = getHeight t) := by
  induction t generalizing k with
  | nil => exact ⟨_, rfl, trivial, trivial, Or.inl rfl⟩
  | node b l rt h ihl ihr =>
    obtain ⟨h0, hl, hr⟩ := hk
    obtain ⟨d1, d2, bl, br⟩ := hb
    have gl := heightOK_getHeight hl
    have gr := heightOK_getHeight hr
    simp only [deleteNode, getHeight_node]
    split_ifs
    · obtain ⟨l1, e, k1, b1, g1⟩ := ihl k hl bl
      rw [e]
      obtain ⟨t1, e1, k2, b2, g2⟩ := balance_avl (b := b) k1 hr b1 br rfl (by omega) (by omega)
      exact ⟨t1, e1, k2, b2, by omega⟩
    · obtain ⟨r1, e, k1, b1, g1⟩ := ihr k hr br
      rw [e]
      obtain ⟨t1, e1, k2, b2, g2⟩ := balance_avl (b := b) hl k1 bl b1 rfl (by omega) (by omega)
      exact ⟨t1, e1, k2, b2, by omega⟩
    · cases l with
      | nil =>
        cases rt with
        | nil => exact ⟨_, rfl, trivial, trivial, by simp at h0 ⊢; omega⟩
        | node cb cl cr ch =>
          obtain ⟨c0, hcl, hcr⟩ := hr
          obtain ⟨c1, c2, bcl, bcr⟩ := br
          obtain ⟨t1, e1, k2, b2, g2⟩ := balance_avl (b := cb) hcl hcr bcl bcr rfl
            (by omega) (by omega)
          simp only [getHeight_node, getHeight_nil] at *
          exact ⟨t1, e1, k2, b2, by omega⟩
      | node cb cl cr ch =>
        cases rt with
        | nil =>
          obtain ⟨c0, hcl, hcr⟩ := hl
          obtain ⟨c1, c2, bcl, bcr⟩ := bl
          obtain ⟨t1, e1, k2, b2, g2⟩ := balance_avl (b := cb) hcl hcr bcl bcr rfl
            (by omega) (by omega)
          simp only [getHeight_node, getHeight_nil] at *
          exact ⟨t1, e1, k2, b2, by omega⟩
        | node db dl dr dh =>
          obtain ⟨tb, tr, th, rest, em, _⟩ := minNode_spec db dl dr dh
          obtain ⟨r1, e, k1, b1, g1⟩ := ihr tb.ISBN hr br
          simp only [em, e]
          obtain ⟨t1, e1, k2, b2, g2⟩ := balance_avl (b := tb) hl k1 bl b1 rfl
            (by omega) (by omega)
          exact ⟨t1, e1, k2, b2, by omega⟩

theorem deleteNode_inorder_aux (k : Int) {t t1 : TreeNode} (hb : BSTOrdered t)
    (e : deleteNode t k = some t1) :
    inorder t1 = (inorder t).filter (fun x => !decide (x.ISBN = k)) := by
  induction t generalizing k t1 with
  | nil =>
    simp only [deleteNode, Option.some.injEq] at e
    subst e; simp [inorder]
  | node b l rt h ihl ihr =>
    obtain ⟨o1, o2, bl, br⟩ := hb
    simp only [deleteNode] at e
    split_ifs at e with c1 c2
    · obtain ⟨l1, el, e2⟩ := Option.bind_eq_some.mp e
      have io := balance_inorder e2
      have hb1 : b.ISBN ≠ k := by omega
      have hr : (inorder rt).filter (fun x => !decide (x.ISBN = k)) = inorder rt := by
        rw [List.filter_eq_self]
        intro x hx; have := o2 x hx; simp; omega
      simp only [inorder] at io ⊢
      simp [io, ihl k bl el, List.filter_cons, hb1, hr]
    · obtain ⟨r1, er, e2⟩ := Option.bind_eq_some.mp e
      have io := balance_inorder e2
      have hb1 : b.ISBN ≠ k := by omega
      have hl : (inorder l).filter (fun x => !decide (x.ISBN = k)) = inorder l := by
        rw [List.filter_eq_self]
        intro x hx; have := o1 x hx; simp; omega
      simp only [inorder] at io ⊢
      simp [io, ihr k br er, List.filter_cons, hb1, hl]
    · have hbk : b.ISBN = k := by omega
      have hl : (inorder l).filter (fun x => !decide (x.ISBN = k)) = inorder l := by
        rw [List.filter_eq_self]
        intro x hx; have := o1 x hx; simp; omega
      have hr : (inorder rt).filter (fun x => !decide (x.ISBN = k)) = inorder rt := by
        rw [List.filter_eq_self]
        intro x hx; have := o2 x hx; simp; omega
      have goal : (inorder (node b l rt h)).filter (fun x => !decide (x.ISBN = k))
          = inorder l ++ inorder rt := by
        simp [inorder, List.filter_cons, hbk, hl, hr]
      rw [goal]
      cases l with
      | nil =>
        cases rt with
        | nil =>
          simp only [Option.some.injEq] at e
          subst e; simp [inorder]
        | node cb cl cr ch =>
          have io := balance_inorder e
          simp only [inorder] at io ⊢
          simp [io]
      | node cb cl cr ch =>
        cases rt with
        | nil =>
          have io := balance_inorder e
          simp only [inorder] at io ⊢
          simp [io]
        | node db dl dr dh =>
          obtain ⟨tb, tr, th, rest, em, eio⟩ := minNode_spec db dl dr dh
          simp only [em] at e
          obtain ⟨r1, er, e2⟩ := Option.bind_eq_some.mp e
          have io := balance_inorder e2
          have i1 := ihr tb.ISBN br er
          have pw := (bstOrdered_iff_pairwise _).mp br
          rw [eio] at i1 pw
          have hrest : rest.filter (fun x => !decide (x.ISBN = tb.ISBN)) = rest := by
            rw [List.filter_eq_self]
            intro x hx
            have := (List.pairwise_cons.mp pw).1 x hx
            simp; omega
          rw [List.filter_cons] at i1
          simp only [decide_True, Bool.not_true, hrest] at i1
          rw [io, eio]
          simp only [inorder]
          simp [i1]

/-- The listing after `deleteNode` is the listing with the records of that
identifier filtered out. -/
theorem deleteNode_inorder (k : Int) {t t1 : TreeNode} (hb : BSTOrdered t)
    (e : deleteNode t k = some t1) :
    inorder t1 = (inorder t).filter (fun x => x.ISBN ≠ k) := by
  simpa using deleteNode_inorder_aux k hb e

theorem deleteNode_bstOrdered (k : Int) {t t1 : TreeNode} (hb : BSTOrdered t)
    (e : deleteNode t k = some t1) : BSTOrdered t1 := by
  rw [bstOrdered_iff_pairwise, deleteNode_inorder k hb e]
  exact ((bstOrdered_iff_pairwise t).mp hb).filter _

/-! ## Duplicate insertion and sequences of calls -/

theorem insert_of_mem (r : Book) {t : TreeNode} (hb : BSTOrdered t) (hbal : Balanced t)
    (hk : HeightOK t) (hm : ∃ x ∈ inorder t, x.ISBN = r.ISBN) : insert t r = some t := by
  induction t with
  | nil => simp [inorder] at hm
  | node b l rt h ihl ihr =>
    obtain ⟨o1, o2, bl, br⟩ := hb
    obtain ⟨d1, d2, al, ar⟩ := hbal
    obtain ⟨h0, kl, kr⟩ := hk
    obtain ⟨x, hx, hxe⟩ := hm
    have hh : max (getHeight l) (getHeight rt) + 1 = h := by omega
    simp only [inorder, List.mem_append, List.mem_cons] at hx
    simp only [insert]
    split_ifs with c1 c2
    · rcases hx with hx | rfl | hx
      · rw [ihl bl al kl ⟨x, hx, hxe⟩]
        simp only [Option.some_bind, hh]
        exact balance_of_le_one d1 d2
      · omega
      · have := o2 x hx; omega
    · rcases hx with hx | rfl | hx
      · have := o1 x hx; omega
      · omega
      · rw [ihr br ar kr ⟨x, hx, hxe⟩]
        simp only [Option.some_bind, hh]
        exact balance_of_le_one d1 d2
    · rw [hh]
      exact balance_of_le_one d1 d2

/-- One call of the interface keeps the three invariants and returns. -/
theorem applyOp_invariants (op : Op) {t : TreeNode} (hb : BSTOrdered t) (hbal : Balanced t)
    (hk : HeightOK t) :
    ∃ t1, applyOp t op = some t1 ∧ BSTOrdered t1 ∧ Balanced t1 ∧ HeightOK t1 := by
  cases op with
  | add i ti a =>
    obtain ⟨t1, e, k1, b1, _⟩ := insert_avl (Book.mk i ti a) hk hbal
    exact ⟨t1, e, insert_bstOrdered _ hb e, b1, k1⟩
  | remove k =>
    cases t with
    | nil => exact ⟨nil, rfl, trivial, trivial, trivial⟩
    | node b l r h =>
      obtain ⟨t1, e, k1, b1, _⟩ := deleteNode_avl k hk hbal
      refine ⟨t1, ?_, deleteNode_bstOrdered k hb e, b1, k1⟩
      simp [applyOp, removeBook, e]

theorem runOps_invariants (ops : List Op) {t : TreeNode} (hb : BSTOrdered t)
    (hbal : Balanced t) (hk : HeightOK t) :
    ∃ t1, runOps t ops = some t1 ∧ BSTOrdered t1 ∧ Balanced t1 ∧ HeightOK t1 := by
  induction ops generalizing t with
  | nil => exact ⟨t, rfl, hb, hbal, hk⟩
  | cons op ops ih =>
    obtain ⟨t1, e, b1, a1, k1⟩ := applyOp_invariants op hb hbal hk
    obtain ⟨t2, e2, h2⟩ := ih b1 a1 k1
    exact ⟨t2, by simp [runOps, e, e2], h2⟩

theorem reachable_invariants {t : TreeNode} (h : Reachable t) :
    BSTOrdered t ∧ Balanced t ∧ HeightOK t := by
  obtain ⟨ops, e⟩ := h
  obtain ⟨t1, e1, h1⟩ := runOps_invariants ops (t := nil) trivial trivial trivial
  rw [e] at e1
  cases e1
  exact h1

/-- A stored identifier was the argument of some earlier `addBook`. -/
theorem runOps_mem (ops : List Op) {t t1 : TreeNode} (hb : BSTOrdered t)
    (hbal : Balanced t) (hk : HeightOK t) (e : runOps t ops = some t1) :
    ∀ x ∈ inorder t1, x ∈ inorder t ∨ ∃ ti a, Op.add x.ISBN ti a ∈ ops := by
  induction ops generalizing t with
  | nil =>
    simp only [runOps, Option.some.injEq] at e
    subst e
    exact fun x hx => Or.inl hx
  | cons op ops ih =>
    obtain ⟨t2, e2, b2, a2, k2⟩ := applyOp_invariants op hb hbal hk
    simp only [runOps, e2, Option.some_bind] at e
    intro x hx
    rcases ih b2 a2 k2 e x hx with h | ⟨ti, a, h⟩
    · cases op with
      | add i ti a =>
        rcases insert_inorder _ hb e2 with ⟨_, hio⟩ | ⟨_, pre, post, e3, e4, _, _⟩
        · rw [hio] at h; exact Or.inl h
        · rw [e4] at h
          simp only [List.mem_append, List.mem_cons] at h
          rw [e3]
          rcases h with h | rfl | h
          · exact Or.inl (List.mem_append_left _ h)
          · exact Or.inr ⟨ti, a, by simp⟩
          · exact Or.inl (List.mem_append_right _ h)
      | remove k =>
        cases t with
        | nil =>
          simp only [applyOp, removeBook, Option.map_some', Option.some.injEq] at e2
          subst e2
          exact Or.inl h
        | node b l r ht =>
          simp only [applyOp, removeBook] at e2
          cases hd : deleteNode (node b l r ht) k with
          | none => simp [hd] at e2
          | some t3 =>
            simp only [hd, Option.some_bind, Option.map_some', Option.some.injEq] at e2
            subst e2
            rw [deleteNode_inorder k hb hd] at h
            exact Or.inl (List.mem_filter.mp h).1
    · exact Or.inr ⟨ti, a, List.mem_cons_of_mem _ h⟩

/-! ## Range search -/

theorem preorder_perm_inorder (t : TreeNode) : (preorder t).Perm (inorder t) := by
  induction t with
  | nil => exact List.Perm.refl _
  | node b l r h ihl ihr =>
    simp only [preorder, inorder]
    exact (List.Perm.cons b (ihl.append ihr)).trans List.perm_middle.symm

theorem mem_preorder_iff {t : TreeNode} {x : Book} : x ∈ preorder t ↔ x ∈ inorder t :=
  (preorder_perm_inorder t).mem_iff

/-- On an ordered tree the pruning loses nothing: `rangeSearch` emits the
in-range records in the order node, left subtree, right subtree. -/
theorem rangeSearch_eq_filter_preorder {t : TreeNode} (hb : BSTOrdered t) (low high : Int) :
    rangeSearch t low high
      = (preorder t).filter (fun x => decide (low ≤ x.ISBN) && decide (x.ISBN ≤ high)) := by
  induction t with
  | nil => rfl
  | node b l r h ihl ihr =>
    obtain ⟨o1, o2, bl, br⟩ := hb
    have el : (if b.ISBN > low then rangeSearch l low high else [])
        = (preorder l).filter (fun x => decide (low ≤ x.ISBN) && decide (x.ISBN ≤ high)) := by
      split_ifs with c
      · exact ihl bl
      · symm
        rw [List.filter_eq_nil_iff]
        intro x hx
        have := o1 x (mem_preorder_iff.mp hx)
        simp only [Bool.and_eq_true, decide_eq_true_eq, not_and]
        omega
    have er : (if b.ISBN < high then rangeSearch r low high else [])
        = (preorder r).filter (fun x => decide (low ≤ x.ISBN) && decide (x.ISBN ≤ high)) := by
      split_ifs with c
      · exact ihr br
      · symm
        rw [List.filter_eq_nil_iff]
        intro x hx
        have := o2 x (mem_preorder_iff.mp hx)
        simp only [Bool.and_eq_true, decide_eq_true_eq, not_and]
        omega
    simp only [rangeSearch, preorder, el, er, List.filter_cons, List.filter_append]
    by_cases c : b.ISBN ≥ low ∧ b.ISBN ≤ high
    · have c1 : low ≤ b.ISBN := c.1
      simp [c, c1]
    · have c2 : ¬ (low ≤ b.ISBN ∧ b.ISBN ≤ high) := c
      simp only [c, if_false]
      have : (decide (low ≤ b.ISBN) && decide (b.ISBN ≤ high)) = false := by
        simpa using c2
      simp [this]

/-! ## Absent keys, bulk insertion and the height bound -/

theorem deleteNode_of_not_mem (k : Int) {t : TreeNode} (hbal : Balanced t) (hk : HeightOK t)
    (hm : ∀ x ∈ inorder t, x.ISBN ≠ k) : deleteNode t k = some t := by
  induction t with
  | nil => rfl
  | node b l rt h ihl ihr =>
    obtain ⟨d1, d2, al, ar⟩ := hbal
    obtain ⟨h0, kl, kr⟩ := hk
    have hbk : b.ISBN ≠ k := hm b (by simp [inorder])
    have hl := ihl al kl fun x hx => hm x (by simp [inorder, hx])
    have hr := ihr ar kr fun x hx => hm x (by simp [inorder, hx])
    simp only [deleteNode]
    split_ifs with c1 c2
    · rw [hl]
      simp only [Option.some_bind, ← h0]
      exact balance_of_le_one d1 d2
    · rw [hr]
      simp only [Option.some_bind, ← h0]
      exact balance_of_le_one d1 d2
    · omega

theorem addBooks_perm (bs : List Book) {t : TreeNode} (hb : BSTOrdered t) (hbal : Balanced t)
    (hk : HeightOK t) (hnd : ((inorder t ++ bs).map Book.ISBN).Nodup) :
    ∃ t1, addBooks t bs = some t1 ∧ BSTOrdered t1 ∧ Balanced t1 ∧ HeightOK t1
      ∧ (inorder t1).Perm (inorder t ++ bs) := by
  induction bs generalizing t with
  | nil => exact ⟨t, rfl, hb, hbal, hk, by simp⟩
  | cons b bs ih =>
    obtain ⟨t2, e, k2, a2, _⟩ := insert_avl b hk hbal
    have b2 := insert_bstOrdered b hb e
    have hp : (inorder t2).Perm (inorder t ++ [b]) := by
      rcases insert_inorder b hb e with ⟨⟨x, hx, hxe⟩, _⟩ | ⟨_, pre, post, e1, e2, _, _⟩
      · exfalso
        rw [List.map_append, List.nodup_append] at hnd
        exact hnd.2.2 (List.mem_map_of_mem _ hx) (by rw [hxe]; simp)
      · rw [e1, e2]
        exact List.perm_middle.trans (List.perm_append_singleton b (pre ++ post)).symm
    have hp2 : (inorder t2 ++ bs).Perm (inorder t ++ b :: bs) := by
      simpa using hp.append_right bs
    obtain ⟨t1, e1, h1, h2, h3, h4⟩ := ih b2 a2 k2 ((hp2.map _).nodup_iff.mpr hnd)
    refine ⟨t1, ?_, h1, h2, h3, h4.trans hp2⟩
    simp only [addBooks, addBook]
    rw [e]
    exact e1

theorem displayAllBooks_congr {t s : TreeNode} (h : inorder t = inorder s) :
    displayAllBooks t = displayAllBooks s := by
  cases t with
  | nil =>
    cases s with
    | nil => rfl
    | node b l r hh => simp [inorder] at h
  | node b l r hh =>
    cases s with
    | nil => simp [inorder] at h
    | node b2 l2 r2 h2 => simp only [displayAllBooks, h]

theorem heightOK_getHeight_eq {t : TreeNode} (hk : HeightOK t) :
    getHeight t = (height t : Int) := by
  induction t with
  | nil => rfl
  | node b l r h ihl ihr =>
    obtain ⟨h0, kl, kr⟩ := hk
    have e1 := ihl kl
    have e2 := ihr kr
    simp only [getHeight_node, height]
    rw [h0, e1, e2]
    push_cast
    rfl

theorem two_pow_half_mono {a b : Nat} (h : a ≤ b) : 2 ^ (a / 2) ≤ 2 ^ (b / 2) :=
  Nat.pow_le_pow_right (by decide) (Nat.div_le_div_right h)

/-- A balanced tree of height `h` has at least `2 ^ (h / 2) - 1` nodes. -/
theorem two_pow_half_height_le (t : TreeNode) (hk : HeightOK t) (hbal : Balanced t) :
    2 ^ (height t / 2) ≤ size t + 1 := by
  induction t with
  | nil => simp [height, size]
  | node b l r h ihl ihr =>
    obtain ⟨_, kl, kr⟩ := hk
    obtain ⟨d1, d2, al, ar⟩ := hbal
    have il := ihl kl al
    have ir := ihr kr ar
    rw [heightOK_getHeight_eq kl, heightOK_getHeight_eq kr] at d1 d2
    simp only [height, size]
    rcases Nat.lt_or_ge (max (height l) (height r)) 1 with h1 | h1
    · have : 1 + max (height l) (height r) = 1 := by omega
      rw [this]
      simp
    · obtain ⟨m, hm⟩ : ∃ m, max (height l) (height r) = m + 1 := ⟨_, (Nat.sub_add_cancel h1).symm⟩
      have hl : m ≤ height l := by omega
      have hr : m ≤ height r := by omega
      have e : (1 + max (height l) (height r)) / 2 = m / 2 + 1 := by
        rw [hm]; omega
      rw [e, pow_succ]
      have := two_pow_half_mono hl
      have := two_pow_half_mono hr
      omega

theorem inorder_filter_pairwise {t : TreeNode} (hb : BSTOrdered t) (p : Book → Bool) :
    ((inorder t).filter p).Pairwise (fun a b => a.ISBN < b.ISBN) :=
  ((bstOrdered_iff_pairwise t).mp hb).filter p

theorem pairwise_lt_nodup {xs : List Book} (h : xs.Pairwise (fun a b => a.ISBN < b.ISBN)) :
    xs.Nodup :=
  h.imp fun {a b} hab e => by rw [e] at hab; omega

theorem sorted_perm_unique {xs ys : List Book} (hp : xs.Perm ys)
    (hx : xs.Pairwise (fun a b => a.ISBN < b.ISBN))
    (hy : ys.Pairwise (fun a b => a.ISBN < b.ISBN)) : xs = ys := by
  haveI : IsAntisymm Book (fun a b => a.ISBN < b.ISBN) :=
    ⟨fun a b h1 h2 => absurd h1 (by omega)⟩
  exact List.eq_of_perm_of_sorted hp hx hy

/-! ## The properties of the specification -/

/-- C1: BST ordering is preserved by every mutation.  For every tree with BST
ordering, every record and every key, the tree `insert` returns and the tree
`deleteNode` returns again have BST ordering, whatever heights the nodes cache;
both do return a tree when the cached heights are correct, as they are in
every tree the class builds.  Hence every sequence of `addBook` and
`removeBook` calls on the empty tree returns a tree, and every tree reachable
that way has BST ordering. -/
theorem ordering_preserved :
    (∀ t : TreeNode, BSTOrdered t → ∀ (r : Book) (k : Int),
      (∀ t1, insert t r = some t1 → BSTOrdered t1) ∧
      (∀ t1, deleteNode t k = some t1 → BSTOrdered t1) ∧
      (HeightOK t →
        (∃ t1, insert t r = some t1 ∧ BSTOrdered t1 ∧ HeightOK t1) ∧
        (∃ t1, deleteNode t k = some t1 ∧ BSTOrdered t1 ∧ HeightOK t1))) ∧
    (∀ ops : List Op, ∃ t, runOps nil ops = some t ∧ BSTOrdered t) ∧
    (∀ t : TreeNode, Reachable t → BSTOrdered t ∧ HeightOK t) := by
  refine ⟨?_, ?_, ?_⟩
  · intro t hb r k
    refine ⟨fun t1 e => insert_bstOrdered r hb e, fun t1 e => deleteNode_bstOrdered k hb e, ?_⟩
    intro hk
    obtain ⟨t1, e1, k1⟩ := insert_heightOK r hk
    obtain ⟨t2, e2, k2⟩ := deleteNode_heightOK k hk
    exact ⟨⟨t1, e1, insert_bstOrdered r hb e1, k1⟩,
      ⟨t2, e2, deleteNode_bstOrdered k hb e2, k2⟩⟩
  · intro ops
    obtain ⟨t, e, hb, _⟩ := runOps_invariants ops (t := nil) trivial trivial trivial
    exact ⟨t, e, hb⟩
  · intro t ht
    obtain ⟨hb, _, hk⟩ := reachable_invariants ht
    exact ⟨hb, hk⟩

/-- C1 at `sampleTree`, inserting 25 and deleting the root 20. -/
theorem ordering_preserved_witness :
    BSTOrdered sampleTree ∧ HeightOK sampleTree ∧
      (∃ t1, insert sampleTree (sampleBook 25) = some t1 ∧ BSTOrdered t1 ∧ HeightOK t1) ∧
      (∃ t1, deleteNode sampleTree 20 = some t1 ∧ BSTOrdered t1 ∧ HeightOK t1) :=
  ⟨by decide, by decide,
    (ordering_preserved.1 sampleTree (by decide) (sampleBook 25) 20).2.2 (by decide)⟩

/-- C2: on a tree with BST ordering, AVL balance and correct cached heights,
`insert` returns a tree that satisfies the balance invariant at every node
(and keeps the cached heights correct, so the balance is that of the real
heights). -/
theorem insert_balanced (t : TreeNode) (_hb : BSTOrdered t) (hbal : Balanced t)
    (hk : HeightOK t) (r : Book) :
    ∃ t1, insert t r = some t1 ∧ Balanced t1 ∧ HeightOK t1 := by
  obtain ⟨t1, e, k1, b1, _⟩ := insert_avl r hk hbal
  exact ⟨t1, e, b1, k1⟩

/-- C2 at `sampleTree`, inserting 25. -/
theorem insert_balanced_witness :
    BSTOrdered sampleTree ∧ Balanced sampleTree ∧ HeightOK sampleTree ∧
      ∃ t1, insert sampleTree (sampleBook 25) = some t1 ∧ Balanced t1 ∧ HeightOK t1 :=
  ⟨by decide, by decide, by decide,
    insert_balanced sampleTree (by decide) (by decide) (by decide) (sampleBook 25)⟩

/-- C3: on a tree with BST ordering, AVL balance and correct cached heights,
`deleteNode` returns, for every key, a tree that satisfies the balance
invariant at every node (and keeps the cached heights correct). -/
theorem deleteNode_balanced (t : TreeNode) (_hb : BSTOrdered t) (hbal : Balanced t)
    (hk : HeightOK t) (k : Int) :
    ∃ t1, deleteNode t k = some t1 ∧ Balanced t1 ∧ HeightOK t1 := by
  obtain ⟨t1, e, k1, b1, _⟩ := deleteNode_avl k hk hbal
  exact ⟨t1, e, b1, k1⟩

/-- C3 at `sampleTree`, deleting the root 20, which has two children. -/
theorem deleteNode_balanced_witness :
    BSTOrdered sampleTree ∧ Balanced sampleTree ∧ HeightOK sampleTree ∧
      ∃ t1, deleteNode sampleTree 20 = some t1 ∧ Balanced t1 ∧ HeightOK t1 :=
  ⟨by decide, by decide, by decide,
    deleteNode_balanced sampleTree (by decide) (by decide) (by decide) 20⟩

/-- C4: on a tree whose cached heights are all correct, `insert` and
`deleteNode` return a tree whose cached heights are all correct. -/
theorem heights_preserved (t : TreeNode) (hk : HeightOK t) (r : Book) (k : Int) :
    (∃ t1, insert t r = some t1 ∧ HeightOK t1) ∧
    (∃ t1, deleteNode t k = some t1 ∧ HeightOK t1) :=
  ⟨insert_heightOK r hk, deleteNode_heightOK k hk⟩

/-- C4 at `sampleTree`, inserting 25 and deleting 20. -/
theorem heights_preserved_witness :
    HeightOK sampleTree ∧
      (∃ t1, insert sampleTree (sampleBook 25) = some t1 ∧ HeightOK t1) ∧
      (∃ t1, deleteNode sampleTree 20 = some t1 ∧ HeightOK t1) :=
  ⟨by decide, heights_preserved sampleTree (by decide) (sampleBook 25) 20⟩

/-- C5: on a tree with BST ordering, `search` returns a node of the tree whose
record has identifier `k` when some node has identifier `k`, and `nullptr` when
none has, in which case `displayBook` writes the not-found line; in particular
that is so for a key no `addBook` call was ever given.  `search` is a function
of the tree alone and what it returns is a node of that same tree. -/
theorem search_correct (t : TreeNode) (hb : BSTOrdered t) (k : Int) :
    ((∃ x ∈ inorder t, x.ISBN = k) →
      ∃ b l r h, search t k = node b l r h ∧ b.ISBN = k ∧ node b l r h ∈ nodes t) ∧
    ((∀ x ∈ inorder t, x.ISBN ≠ k) →
      search t k = nil ∧ displayBook t k = "Book not found!\n") ∧
    (∀ ops, runOps nil ops = some t → (∀ ti a, Op.add k ti a ∉ ops) →
      search t k = nil ∧ displayBook t k = "Book not found!\n") := by
  have h2 : (∀ x ∈ inorder t, x.ISBN ≠ k) →
      search t k = nil ∧ displayBook t k = "Book not found!\n" := by
    intro h
    have e := search_of_not_mem h
    exact ⟨e, by simp [displayBook, e]⟩
  refine ⟨search_of_mem hb, h2, ?_⟩
  intro ops e hops
  apply h2
  intro x hx hxk
  rcases runOps_mem ops (t := nil) trivial trivial trivial e x hx with h | ⟨ti, a, h⟩
  · simp [inorder] at h
  · rw [hxk] at h
    exact hops ti a h

/-- C5 at `sampleTree`: 30 is found, 25 is not. -/
theorem search_correct_witness :
    BSTOrdered sampleTree ∧
      (∃ b l r h, search sampleTree 30 = node b l r h ∧ b.ISBN = 30
        ∧ node b l r h ∈ nodes sampleTree) ∧
      (search sampleTree 25 = nil ∧ displayBook sampleTree 25 = "Book not found!\n") :=
  ⟨by decide,
    (search_correct sampleTree (by decide) 30).1 ⟨sampleBook 30, by decide, rfl⟩,
    (search_correct sampleTree (by decide) 25).2.1 (by decide)⟩

/-- C6, as stated, fails: inserting a record whose identifier is already stored
leaves the stored record in place, so the search returns the old title and
author, not those just inserted. -/
theorem insert_search_counterexample :
    BSTOrdered sampleTree ∧ Balanced sampleTree ∧ HeightOK sampleTree ∧
      insert sampleTree (Book.mk 30 "new title" "new author") = some sampleTree ∧
      search sampleTree 30 = node (sampleBook 30) nil nil 1 ∧
      ¬ ∃ t1, insert sampleTree (Book.mk 30 "new title" "new author") = some t1 ∧
        ∃ l r h, search t1 30 = node (Book.mk 30 "new title" "new author") l r h := by
  have e : insert sampleTree (Book.mk 30 "new title" "new author") = some sampleTree := by
    decide
  refine ⟨by decide, by decide, by decide, e, by decide, ?_⟩
  rintro ⟨t1, h, l, r, ht, hs⟩
  rw [e] at h
  cases h
  have es : search sampleTree 30 = node (sampleBook 30) nil nil 1 := by decide
  rw [es] at hs
  simp [sampleBook] at hs

/-- C6 (amended): on a tree with BST ordering, AVL balance and correct cached
heights, `insert` returns a tree in which searching the record's identifier
finds a node with that identifier; its record is the inserted record when the
identifier was not stored before, and the record stored before otherwise. -/
theorem insert_search (t : TreeNode) (hb : BSTOrdered t) (hbal : Balanced t)
    (hk : HeightOK t) (r : Book) :
    ∃ t1, insert t r = some t1 ∧ ∃ x l rt h, search t1 r.ISBN = node x l rt h
      ∧ x.ISBN = r.ISBN
      ∧ ((∀ y ∈ inorder t, y.ISBN ≠ r.ISBN) → x = r)
      ∧ (∀ y ∈ inorder t, y.ISBN = r.ISBN → x = y) := by
  obtain ⟨t1, e, _⟩ := insert_avl r hk hbal
  have hb1 := insert_bstOrdered r hb e
  have pw := (bstOrdered_iff_pairwise t1).mp hb1
  have key : ∀ y ∈ inorder t1, y.ISBN = r.ISBN →
      ∃ x l rt h, search t1 r.ISBN = node x l rt h ∧ x.ISBN = r.ISBN ∧ x = y := by
    intro y hy hye
    obtain ⟨x, l, rt, h, es, ex, hm⟩ := search_of_mem hb1 ⟨y, hy, hye⟩
    refine ⟨x, l, rt, h, es, ex, ?_⟩
    obtain ⟨x1, _, _, _, e1, hx⟩ := mem_nodes_inorder hm
    cases e1
    exact pairwise_key_unique pw hx hy (by omega)
  refine ⟨t1, e, ?_⟩
  rcases insert_inorder r hb e with ⟨⟨y, hy, hye⟩, hio⟩ | ⟨hne, pre, post, _, e2, _, _⟩
  · obtain ⟨x, l, rt, h, es, ex, exy⟩ := key y (by rw [hio]; exact hy) hye
    refine ⟨x, l, rt, h, es, ex, fun hne => absurd hye (hne y hy), ?_⟩
    intro y1 hy1 hye1
    rw [exy]
    rw [← hio] at hy hy1
    exact pairwise_key_unique pw hy hy1 (by omega)
  · obtain ⟨x, l, rt, h, es, ex, exy⟩ := key r (by rw [e2]; simp) rfl
    exact ⟨x, l, rt, h, es, ex, fun _ => exy, fun y1 hy1 hye1 => absurd hye1 (hne y1 hy1)⟩

/-- C6 at `sampleTree`: the fresh record 25 is found as inserted. -/
theorem insert_search_witness :
    BSTOrdered sampleTree ∧ Balanced sampleTree ∧ HeightOK sampleTree ∧
      ∃ t1, insert sampleTree (sampleBook 25) = some t1 ∧
        ∃ x l rt h, search t1 (sampleBook 25).ISBN = node x l rt h
          ∧ x.ISBN = (sampleBook 25).ISBN
          ∧ ((∀ y ∈ inorder sampleTree, y.ISBN ≠ (sampleBook 25).ISBN) → x = sampleBook 25)
          ∧ (∀ y ∈ inorder sampleTree, y.ISBN = (sampleBook 25).ISBN → x = y) :=
  ⟨by decide, by decide, by decide,
    insert_search sampleTree (by decide) (by decide) (by decide) (sampleBook 25)⟩

/-- C7: on a tree with BST ordering, AVL balance and correct cached heights,
`deleteNode` returns a tree in which searching the deleted key returns
`nullptr`. -/
theorem delete_search (t : TreeNode) (hb : BSTOrdered t) (hbal : Balanced t)
    (hk : HeightOK t) (k : Int) :
    ∃ t1, deleteNode t k = some t1 ∧ search t1 k = nil := by
  obtain ⟨t1, e, _⟩ := deleteNode_avl k hk hbal
  refine ⟨t1, e, search_of_not_mem ?_⟩
  intro x hx
  rw [deleteNode_inorder k hb e] at hx
  simpa using (List.mem_filter.mp hx).2

/-- C7 at `sampleTree`, deleting the root 20, which has two children and is
replaced by its successor 30. -/
theorem delete_search_witness :
    BSTOrdered sampleTree ∧ Balanced sampleTree ∧ HeightOK sampleTree ∧
      ∃ t1, deleteNode sampleTree 20 = some t1 ∧ search t1 20 = nil :=
  ⟨by decide, by decide, by decide,
    delete_search sampleTree (by decide) (by decide) (by decide) 20⟩

/-- C8: on a tree with BST ordering, AVL balance and correct cached heights
that stores the key `k`, `deleteNode` returns a tree whose in-order listing is
the listing of `t` with the one record of identifier `k` taken out and every
other record kept, in the same order. -/
theorem delete_listing (t : TreeNode) (hb : BSTOrdered t) (hbal : Balanced t)
    (hk : HeightOK t) (k : Int) (hm : ∃ x ∈ inorder t, x.ISBN = k) :
    ∃ t1, deleteNode t k = some t1
      ∧ inorder t1 = (inorder t).filter (fun y => y.ISBN ≠ k)
      ∧ ∃ pre x post, inorder t = pre ++ x :: post ∧ x.ISBN = k
        ∧ inorder t1 = pre ++ post ∧ ∀ y ∈ pre ++ post, y.ISBN ≠ k := by
  obtain ⟨t1, e, _⟩ := deleteNode_avl k hk hbal
  have io := deleteNode_inorder k hb e
  refine ⟨t1, e, io, ?_⟩
  obtain ⟨x, hx, hxk⟩ := hm
  obtain ⟨pre, post, es⟩ := List.append_of_mem hx
  have pw := (bstOrdered_iff_pairwise t).mp hb
  rw [es, List.pairwise_append, List.pairwise_cons] at pw
  obtain ⟨_, ⟨p2, _⟩, p3⟩ := pw
  have hne : ∀ y ∈ pre ++ post, y.ISBN ≠ k := by
    intro y hy
    rcases List.mem_append.mp hy with hy | hy
    · have := p3 y hy x (List.mem_cons_self _ _); omega
    · have := p2 y hy; omega
  refine ⟨pre, x, post, es, hxk, ?_, hne⟩
  rw [io, es, List.filter_append, List.filter_cons]
  have h1 : pre.filter (fun y => decide (y.ISBN ≠ k)) = pre :=
    List.filter_eq_self.mpr fun y hy => by simpa using hne y (List.mem_append_left _ hy)
  have h2 : post.filter (fun y => decide (y.ISBN ≠ k)) = post :=
    List.filter_eq_self.mpr fun y hy => by simpa using hne y (List.mem_append_right _ hy)
  rw [h1, h2]
  simp [hxk]

/-- C8 on the scenario: the tree built from 50, 30, 70, 20, 40 is
`scenarioTree`, and deleting 30, a node with two children, leaves the listing
20, 40, 50, 70. -/
theorem delete_listing_witness :
    addBooks nil ([50, 30, 70, 20, 40].map sampleBook) = some scenarioTree ∧
      BSTOrdered scenarioTree ∧ Balanced scenarioTree ∧ HeightOK scenarioTree ∧
      (∃ x ∈ inorder scenarioTree, x.ISBN = 30) ∧
      ∃ t1, deleteNode scenarioTree 30 = some t1
        ∧ (inorder t1).map Book.ISBN = [20, 40, 50, 70] := by
  obtain ⟨t1, e, io, _⟩ := delete_listing scenarioTree (by decide) (by decide) (by decide) 30
    ⟨sampleBook 30, by decide, rfl⟩
  refine ⟨by decide, by decide, by decide, by decide, ⟨sampleBook 30, by decide, rfl⟩,
    t1, e, ?_⟩
  rw [io]
  decide

/-- C9: on a tree with BST ordering, AVL balance and correct cached heights
that does not store the record's identifier, `insert` returns a tree whose
in-order listing is the listing of `t` with the record put between the records
of smaller and those of greater identifier, every stored record kept; the
number of nodes grows by one. -/
theorem insert_listing (t : TreeNode) (hb : BSTOrdered t) (hbal : Balanced t)
    (hk : HeightOK t) (r : Book) (hf : ∀ x ∈ inorder t, x.ISBN ≠ r.ISBN) :
    ∃ t1, insert t r = some t1
      ∧ (∃ pre post, inorder t = pre ++ post ∧ inorder t1 = pre ++ r :: post
        ∧ (∀ x ∈ pre, x.ISBN < r.ISBN) ∧ (∀ x ∈ post, r.ISBN < x.ISBN))
      ∧ size t1 = size t + 1 := by
  obtain ⟨t1, e, _⟩ := insert_avl r hk hbal
  refine ⟨t1, e, ?_⟩
  rcases insert_inorder r hb e with ⟨⟨x, hx, hxe⟩, _⟩ | ⟨_, pre, post, e1, e2, h1, h2⟩
  · exact absurd hxe (hf x hx)
  · refine ⟨⟨pre, post, e1, e2, h1, h2⟩, ?_⟩
    rw [size_eq_length, size_eq_length, e1, e2]
    simp only [List.length_append, List.length_cons]
    omega

/-- C9 at `sampleTree`, inserting the fresh identifier 25. -/
theorem insert_listing_witness :
    BSTOrdered sampleTree ∧ Balanced sampleTree ∧ HeightOK sampleTree ∧
      (∀ x ∈ inorder sampleTree, x.ISBN ≠ (sampleBook 25).ISBN) ∧
      ∃ t1, insert sampleTree (sampleBook 25) = some t1
        ∧ (∃ pre post, inorder sampleTree = pre ++ post
          ∧ inorder t1 = pre ++ sampleBook 25 :: post
          ∧ (∀ x ∈ pre, x.ISBN < (sampleBook 25).ISBN)
          ∧ (∀ x ∈ post, (sampleBook 25).ISBN < x.ISBN))
        ∧ size t1 = size sampleTree + 1 :=
  ⟨by decide, by decide, by decide, by decide,
    insert_listing sampleTree (by decide) (by decide) (by decide) (sampleBook 25) (by decide)⟩

/-- C10: on a tree with BST ordering, AVL balance and correct cached heights
that already stores the record's identifier, `insert` (and so `addBook`)
returns the tree it was given, node for node: same shape, same cached heights,
same stored records. -/
theorem insert_duplicate (t : TreeNode) (hb : BSTOrdered t) (hbal : Balanced t)
    (hk : HeightOK t) (r : Book) (hm : ∃ x ∈ inorder t, x.ISBN = r.ISBN) :
    insert t r = some t ∧ addBook t r.ISBN r.title r.author = some t :=
  ⟨insert_of_mem r hb hbal hk hm, insert_of_mem r hb hbal hk hm⟩

/-- C10 at `sampleTree`: a second record with identifier 30 changes nothing,
and the search still returns the first title and author. -/
theorem insert_duplicate_witness :
    BSTOrdered sampleTree ∧ Balanced sampleTree ∧ HeightOK sampleTree ∧
      (∃ x ∈ inorder sampleTree, x.ISBN = (Book.mk 30 "new title" "new author").ISBN) ∧
      insert sampleTree (Book.mk 30 "new title" "new author") = some sampleTree ∧
      addBook sampleTree 30 "new title" "new author" = some sampleTree :=
  ⟨by decide, by decide, by decide, ⟨sampleBook 30, by decide, rfl⟩,
    insert_duplicate sampleTree (by decide) (by decide) (by decide)
      (Book.mk 30 "new title" "new author") ⟨sampleBook 30, by decide, rfl⟩⟩

/-- C11: on a tree with BST ordering, the records `rangeSearch` emits are,
each exactly once, the records of the tree with `low <= ISBN <= high`: the
emitted sequence is a rearrangement of the in-range part of the listing, has
no repetition, a record is emitted exactly when it is stored and in range, and
nothing is emitted when `low > high`. -/
theorem rangeSearch_exact (t : TreeNode) (hb : BSTOrdered t) (low high : Int) :
    (rangeSearch t low high).Perm
        ((inorder t).filter (fun x => decide (low ≤ x.ISBN) && decide (x.ISBN ≤ high)))
      ∧ (rangeSearch t low high).Nodup
      ∧ (∀ x, x ∈ rangeSearch t low high ↔ x ∈ inorder t ∧ low ≤ x.ISBN ∧ x.ISBN ≤ high)
      ∧ (high < low → rangeSearch t low high = []) := by
  have e := rangeSearch_eq_filter_preorder hb low high
  have hp : (rangeSearch t low high).Perm
      ((inorder t).filter (fun x => decide (low ≤ x.ISBN) && decide (x.ISBN ≤ high))) := by
    rw [e]
    exact (preorder_perm_inorder t).filter _
  have hmem : ∀ x, x ∈ rangeSearch t low high ↔
      x ∈ inorder t ∧ low ≤ x.ISBN ∧ x.ISBN ≤ high := by
    intro x
    rw [hp.mem_iff, List.mem_filter]
    simp
  refine ⟨hp, hp.nodup_iff.mpr (pairwise_lt_nodup (inorder_filter_pairwise hb _)), hmem, ?_⟩
  intro hlt
  rw [List.eq_nil_iff_forall_not_mem]
  intro x hx
  have := (hmem x).mp hx
  omega

/-- C11 at `scenarioTree` with the range 25..50: the records 50, 30, 40 are
emitted and no other. -/
theorem rangeSearch_exact_witness :
    BSTOrdered scenarioTree ∧
      (rangeSearch scenarioTree 25 50).map Book.ISBN = [50, 30, 40] ∧
      (rangeSearch scenarioTree 25 50).Perm
        ((inorder scenarioTree).filter (fun x => decide (25 ≤ x.ISBN) && decide (x.ISBN ≤ 50))) ∧
      (rangeSearch scenarioTree 25 50).Nodup :=
  ⟨by decide, by decide, (rangeSearch_exact scenarioTree (by decide) 25 50).1,
    (rangeSearch_exact scenarioTree (by decide) 25 50).2.1⟩

/-- C12: what the code does.  On a tree with BST ordering `rangeSearch` emits
the in-range records in the order node, left subtree, right subtree, because
it writes the node's line before it descends left; the emitted sequence is a
rearrangement of the in-range part of the in-order listing, which is the
strictly ascending one. -/
theorem rangeSearch_order (t : TreeNode) (hb : BSTOrdered t) (low high : Int) :
    rangeSearch t low high
        = (preorder t).filter (fun x => decide (low ≤ x.ISBN) && decide (x.ISBN ≤ high))
      ∧ (rangeSearch t low high).Perm
        ((inorder t).filter (fun x => decide (low ≤ x.ISBN) && decide (x.ISBN ≤ high)))
      ∧ ((inorder t).filter (fun x => decide (low ≤ x.ISBN) && decide (x.ISBN ≤ high))).Pairwise
        (fun a b => a.ISBN < b.ISBN) := by
  have e := rangeSearch_eq_filter_preorder hb low high
  refine ⟨e, ?_, inorder_filter_pairwise hb _⟩
  rw [e]
  exact (preorder_perm_inorder t).filter _

/-- C12 at the tree built from 10, 20, 30 and the range 10..30: the tree is
`sampleTree`, balanced with correct heights, and the identifiers are emitted
as 20, 10, 30, the root first, which is not ascending, while `inorder` on the
same tree lists 10, 20, 30. -/
theorem rangeSearch_order_witness :
    addBooks nil ([10, 20, 30].map sampleBook) = some sampleTree ∧
      BSTOrdered sampleTree ∧ Balanced sampleTree ∧ HeightOK sampleTree ∧
      rangeSearch sampleTree 10 30
        = (preorder sampleTree).filter (fun x => decide (10 ≤ x.ISBN) && decide (x.ISBN ≤ 30)) ∧
      (rangeSearch sampleTree 10 30).map Book.ISBN = [20, 10, 30] ∧
      ¬ (rangeSearch sampleTree 10 30).Pairwise (fun a b => a.ISBN < b.ISBN) ∧
      (inorder sampleTree).map Book.ISBN = [10, 20, 30] :=
  ⟨by decide, by decide, by decide, by decide,
    (rangeSearch_order sampleTree (by decide) 10 30).1, by decide, by decide, by decide⟩

/-- C13: for records with pairwise distinct identifiers, inserting them into
the empty tree in any order gives a tree with the same in-order listing
(and the same text from `displayAllBooks`): the records in strictly ascending
order of identifier. -/
theorem listing_order_independent (bs bs1 : List Book) (hnd : (bs.map Book.ISBN).Nodup)
    (hp : bs1.Perm bs) :
    ∃ t t1, addBooks nil bs = some t ∧ addBooks nil bs1 = some t1
      ∧ inorder t1 = inorder t
      ∧ (inorder t).Pairwise (fun a b => a.ISBN < b.ISBN) ∧ (inorder t).Perm bs
      ∧ displayAllBooks t1 = displayAllBooks t := by
  have hnd1 : (bs1.map Book.ISBN).Nodup := (hp.map _).nodup_iff.mpr hnd
  obtain ⟨t, e, b, _, _, p⟩ := addBooks_perm bs (t := nil) trivial trivial trivial
    (by simpa [inorder] using hnd)
  obtain ⟨t1, e1, b1, _, _, p1⟩ := addBooks_perm bs1 (t := nil) trivial trivial trivial
    (by simpa [inorder] using hnd1)
  simp only [inorder, List.nil_append] at p p1
  have s := (bstOrdered_iff_pairwise t).mp b
  have s1 := (bstOrdered_iff_pairwise t1).mp b1
  have eq : inorder t1 = inorder t := sorted_perm_unique (p1.trans (hp.trans p.symm)) s1 s
  exact ⟨t, t1, e, e1, eq, s, p, displayAllBooks_congr eq⟩

/-- C13 for the records 50, 30, 70, 20, 40 and the order 20, 30, 40, 50, 70:
both listings are 20, 30, 40, 50, 70. -/
theorem listing_order_independent_witness :
    (([50, 30, 70, 20, 40].map sampleBook).map Book.ISBN).Nodup ∧
      ([20, 30, 40, 50, 70].map sampleBook).Perm ([50, 30, 70, 20, 40].map sampleBook) ∧
      ∃ t t1, addBooks nil ([50, 30, 70, 20, 40].map sampleBook) = some t
        ∧ addBooks nil ([20, 30, 40, 50, 70].map sampleBook) = some t1
        ∧ inorder t1 = inorder t
        ∧ (inorder t).Pairwise (fun a b => a.ISBN < b.ISBN)
        ∧ (inorder t).Perm ([50, 30, 70, 20, 40].map sampleBook)
        ∧ displayAllBooks t1 = displayAllBooks t :=
  ⟨by decide, by decide,
    listing_order_independent _ _ (by decide) (by decide)⟩

/-- C14: for records with identifiers `a < b < c`, inserting them into the
empty tree in the order a, b, c, in the order c, b, a or in the order c, a, b
gives the tree with root `b` of cached height 2 whose children are the leaves
`a` and `c` of cached height 1. -/
theorem three_key_shape (ba bb bc : Book) (h1 : ba.ISBN < bb.ISBN) (h2 : bb.ISBN < bc.ISBN) :
    addBooks nil [ba, bb, bc] = some (node bb (node ba nil nil 1) (node bc nil nil 1) 2)
      ∧ addBooks nil [bc, bb, ba] = some (node bb (node ba nil nil 1) (node bc nil nil 1) 2)
      ∧ addBooks nil [bc, ba, bb] = some (node bb (node ba nil nil 1) (node bc nil nil 1) 2) := by
  have h3 : ba.ISBN < bc.ISBN := by omega
  have n1 : ¬ bb.ISBN < ba.ISBN := by omega
  have n2 : ¬ bc.ISBN < bb.ISBN := by omega
  have n3 : ¬ bc.ISBN < ba.ISBN := by omega
  have ea : ∀ (t : TreeNode) (x : Book), addBook t x.ISBN x.title x.author = insert t x :=
    fun _ _ => rfl
  have leaf : ∀ x : Book, insert nil x = some (node x nil nil 1) := fun _ => rfl
  -- a, b, c: a right-heavy chain, then one left rotation
  have s1 : insert (node ba nil nil 1) bb = some (node ba nil (node bb nil nil 1) 2) := by
    simp [insert, balance, n1, h1]
  have s2 : insert (node ba nil (node bb nil nil 1) 2) bc
      = some (node bb (node ba nil nil 1) (node bc nil nil 1) 2) := by
    simp [insert, balance, leftRotate, n3, h3, n2, h2]
  -- c, b, a: a left-heavy chain, then one right rotation
  have s3 : insert (node bc nil nil 1) bb = some (node bc (node bb nil nil 1) nil 2) := by
    simp [insert, balance, h2]
  have s4 : insert (node bc (node bb nil nil 1) nil 2) ba
      = some (node bb (node ba nil nil 1) (node bc nil nil 1) 2) := by
    simp [insert, balance, rightRotate, h3, h1]
  -- c, a, b: the left child becomes right-heavy, then two rotations
  have s5 : insert (node bc nil nil 1) ba = some (node bc (node ba nil nil 1) nil 2) := by
    simp [insert, balance, h3]
  have s6 : insert (node bc (node ba nil nil 1) nil 2) bb
      = some (node bb (node ba nil nil 1) (node bc nil nil 1) 2) := by
    simp [insert, balance, leftRotate, rightRotate, h2, n1, h1]
  refine ⟨?_, ?_, ?_⟩
  · simp only [addBooks, ea, leaf, Option.some_bind, s1, s2]
  · simp only [addBooks, ea, leaf, Option.some_bind, s3, s4]
  · simp only [addBooks, ea, leaf, Option.some_bind, s5, s6]

/-- C14 for 10, 20, 30: the three orders all give `sampleTree`. -/
theorem three_key_shape_witness :
    (sampleBook 10).ISBN < (sampleBook 20).ISBN ∧ (sampleBook 20).ISBN < (sampleBook 30).ISBN ∧
      addBooks nil [sampleBook 10, sampleBook 20, sampleBook 30] = some sampleTree ∧
      addBooks nil [sampleBook 30, sampleBook 20, sampleBook 10] = some sampleTree ∧
      addBooks nil [sampleBook 30, sampleBook 10, sampleBook 20] = some sampleTree :=
  ⟨by decide, by decide,
    three_key_shape (sampleBook 10) (sampleBook 20) (sampleBook 30) (by decide) (by decide)⟩

/-- C15: what the code does. On a non-empty tree with AVL balance and correct
cached heights that does not store the key, `removeBook` leaves the tree as it
is and still writes the line saying a book was removed. -/
theorem removeBook_absent (t : TreeNode) (hne : t ≠ nil) (hbal : Balanced t) (hk : HeightOK t)
    (k : Int) (hm : ∀ x ∈ inorder t, x.ISBN ≠ k) :
    removeBook t k = some (t, "Book removed successfully!\n") := by
  cases t with
  | nil => exact absurd rfl hne
  | node b l r h =>
    simp only [removeBook, deleteNode_of_not_mem k hbal hk hm, Option.some_bind]

/-- C15 at `sampleTree` and the key 25, which `displayBook` reports as not
found. -/
theorem removeBook_absent_witness :
    sampleTree ≠ nil ∧ Balanced sampleTree ∧ HeightOK sampleTree ∧
      (∀ x ∈ inorder sampleTree, x.ISBN ≠ 25) ∧
      displayBook sampleTree 25 = "Book not found!\n" ∧
      removeBook sampleTree 25 = some (sampleTree, "Book removed successfully!\n") :=
  ⟨by decide, by decide, by decide, by decide, by decide,
    removeBook_absent sampleTree (by decide) (by decide) (by decide) 25 (by decide)⟩

/-- C16: on the empty tree `removeBook` returns at its first test: the tree
stays empty and the line written is the tree-empty line, which is neither the
line written after a removal from a non-empty tree nor the not-found line of
`displayBook`. -/
theorem removeBook_empty (k : Int) :
    removeBook nil k = some (nil, "The tree is empty, no book to remove!\n")
      ∧ (∀ b l r h k1 t1 out, removeBook (node b l r h) k1 = some (t1, out) →
          out = "Book removed successfully!\n"
            ∧ out ≠ "The tree is empty, no book to remove!\n")
      ∧ "The tree is empty, no book to remove!\n" ≠ "Book not found!\n" := by
  refine ⟨rfl, ?_, by decide⟩
  intro b l r h k1 t1 out e
  simp only [removeBook] at e
  cases hd : deleteNode (node b l r h) k1 with
  | none => simp [hd] at e
  | some t2 =>
    simp only [hd, Option.some_bind, Option.some.injEq, Prod.mk.injEq] at e
    rw [← e.2]
    exact ⟨rfl, by decide⟩

/-- C17: on a tree with BST ordering, AVL balance and correct cached heights
that does not store the key, `deleteNode` returns the tree it was given, node
for node. -/
theorem delete_absent (t : TreeNode) (_hb : BSTOrdered t) (hbal : Balanced t)
    (hk : HeightOK t) (k : Int) (hm : ∀ x ∈ inorder t, x.ISBN ≠ k) :
    deleteNode t k = some t :=
  deleteNode_of_not_mem k hbal hk hm

/-- C17 at `scenarioTree` and the key 35. -/
theorem delete_absent_witness :
    BSTOrdered scenarioTree ∧ Balanced scenarioTree ∧ HeightOK scenarioTree ∧
      (∀ x ∈ inorder scenarioTree, x.ISBN ≠ 35) ∧
      deleteNode scenarioTree 35 = some scenarioTree :=
  ⟨by decide, by decide, by decide, by decide,
    delete_absent scenarioTree (by decide) (by decide) (by decide) 35 (by decide)⟩

/-- C18: for a node with correct cached height whose subtrees are balanced
with correct cached heights and differ in height by at most 2, `balance`
returns a subtree that is balanced at every node with correct cached heights
(and holds the same records in the same order); when the subtrees differ by at
most 1 it returns the node unchanged. -/
theorem balance_restores (b : Book) (l r : TreeNode) (h : Int)
    (h0 : h = 1 + max (getHeight l) (getHeight r))
    (hl : HeightOK l) (hr : HeightOK r) (bl : Balanced l) (br : Balanced r)
    (d1 : getHeight l - getHeight r ≤ 2) (d2 : getHeight r - getHeight l ≤ 2) :
    (∃ t1, balance (node b l r h) = some t1 ∧ Balanced t1 ∧ HeightOK t1
        ∧ inorder t1 = inorder (node b l r h))
      ∧ (getHeight l - getHeight r ≤ 1 → getHeight r - getHeight l ≤ 1 →
          balance (node b l r h) = some (node b l r h)) := by
  obtain ⟨t1, e, k1, b1, _⟩ := balance_avl (b := b) hl hr bl br h0 d1 d2
  exact ⟨⟨t1, e, b1, k1, balance_inorder e⟩, fun e1 e2 => balance_of_le_one e1 e2⟩

/-- C18 at the left-right shape 30 (10 (-, 20), -), whose subtrees differ by
2: `balance` returns `sampleTree`; and at `sampleTree` itself, which it
returns unchanged. -/
theorem balance_restores_witness :
    HeightOK (node (sampleBook 10) nil (node (sampleBook 20) nil nil 1) 2) ∧
      Balanced (node (sampleBook 10) nil (node (sampleBook 20) nil nil 1) 2) ∧
      balance (node (sampleBook 30)
        (node (sampleBook 10) nil (node (sampleBook 20) nil nil 1) 2) nil 3) = some sampleTree ∧
      (∃ t1, balance (node (sampleBook 30)
          (node (sampleBook 10) nil (node (sampleBook 20) nil nil 1) 2) nil 3) = some t1
        ∧ Balanced t1 ∧ HeightOK t1
        ∧ inorder t1 = inorder (node (sampleBook 30)
          (node (sampleBook 10) nil (node (sampleBook 20) nil nil 1) 2) nil 3)) ∧
      balance sampleTree = some sampleTree :=
  ⟨by decide, by decide, by decide,
    (balance_restores (sampleBook 30)
      (node (sampleBook 10) nil (node (sampleBook 20) nil nil 1) 2) nil 3
      (by decide) (by decide) (by decide) (by decide) (by decide) (by decide) (by decide)).1,
    (balance_restores (sampleBook 20) (node (sampleBook 10) nil nil 1)
      (node (sampleBook 30) nil nil 1) 2
      (by decide) (by decide) (by decide) (by decide) (by decide) (by decide) (by decide)).2
      (by decide) (by decide)⟩

/-- C19: at a node `n` with correct cached heights, every rotation `balance`
performs finds the child it promotes: when the factor is above 1 the left child
is present, and when that child is right-heavy its right child is present, so
`leftRotate` on the child and `rightRotate` on the node both return; the mirror
holds below -1.  Hence `balance`, and on every tree `t` with correct cached
heights `insert` and `deleteNode`, return a tree: no absent node is
dereferenced. -/
theorem rotation_preconditions (b : Book) (l r : TreeNode) (h : Int)
    (hn : HeightOK (node b l r h)) (t : TreeNode) (ht : HeightOK t) (rec : Book) (k : Int) :
    (getBalance (node b l r h) > 1 →
        (∃ lb ll lr lh, l = node lb ll lr lh ∧ (getBalance l < 0 → lr ≠ nil))
          ∧ (getBalance l < 0 →
              ∃ l1, leftRotate l = some l1 ∧ ∃ t1, rightRotate (node b l1 r h) = some t1)
          ∧ (¬ getBalance l < 0 → ∃ t1, rightRotate (node b l r h) = some t1))
      ∧ (getBalance (node b l r h) < -1 →
        (∃ rb rl rr rh, r = node rb rl rr rh ∧ (getBalance r > 0 → rl ≠ nil))
          ∧ (getBalance r > 0 →
              ∃ r1, rightRotate r = some r1 ∧ ∃ t1, leftRotate (node b l r1 h) = some t1)
          ∧ (¬ getBalance r > 0 → ∃ t1, leftRotate (node b l r h) = some t1))
      ∧ (∃ t1, balance (node b l r h) = some t1)
      ∧ (∃ t1, insert t rec = some t1)
      ∧ (∃ t1, deleteNode t k = some t1) := by
  obtain ⟨_, hl, hr⟩ := hn
  have gl := heightOK_getHeight hl
  have gr := heightOK_getHeight hr
  refine ⟨?_, ?_, ?_, ?_, ?_⟩
  · intro c1
    cases l with
    | nil => simp at c1; omega
    | node lb ll lr lh =>
      obtain ⟨_, hll, hlr⟩ := hl
      have gll := heightOK_getHeight hll
      have key : getBalance (node lb ll lr lh) < 0 → lr ≠ nil := by
        intro c2 e
        subst e
        simp at c2
        omega
      refine ⟨⟨lb, ll, lr, lh, rfl, key⟩, ?_, fun _ => ⟨_, rfl⟩⟩
      intro c2
      cases lr with
      | nil => exact absurd rfl (key c2)
      | node mb ml mr mh => exact ⟨_, rfl, _, rfl⟩
  · intro c1
    cases r with
    | nil => simp at c1; omega
    | node rb rl rr rh =>
      obtain ⟨_, hrl, hrr⟩ := hr
      have grr := heightOK_getHeight hrr
      have key : getBalance (node rb rl rr rh) > 0 → rl ≠ nil := by
        intro c2 e
        subst e
        simp at c2
        omega
      refine ⟨⟨rb, rl, rr, rh, rfl, key⟩, ?_, fun _ => ⟨_, rfl⟩⟩
      intro c2
      cases rl with
      | nil => exact absurd rfl (key c2)
      | node mb ml mr mh => exact ⟨_, rfl, _, rfl⟩
  · obtain ⟨t1, e, _⟩ := balance_heightOK (b := b) (l := l) (r := r) (h := h) ⟨by assumption, hl, hr⟩
    exact ⟨t1, e⟩
  · obtain ⟨t1, e, _⟩ := insert_heightOK rec ht
    exact ⟨t1, e⟩
  · obtain ⟨t1, e, _⟩ := deleteNode_heightOK k ht
    exact ⟨t1, e⟩

/-- C19 at the left-right shape 30 (10 (-, 20), -), with `scenarioTree` for
`insert` and `deleteNode`. -/
theorem rotation_preconditions_witness :
    HeightOK (node (sampleBook 30)
        (node (sampleBook 10) nil (node (sampleBook 20) nil nil 1) 2) nil 3) ∧
      HeightOK scenarioTree ∧
      balance (node (sampleBook 30)
        (node (sampleBook 10) nil (node (sampleBook 20) nil nil 1) 2) nil 3) = some sampleTree ∧
      (∃ t1, balance (node (sampleBook 30)
        (node (sampleBook 10) nil (node (sampleBook 20) nil nil 1) 2) nil 3) = some t1) ∧
      (∃ t1, insert scenarioTree (sampleBook 45) = some t1) ∧
      (∃ t1, deleteNode scenarioTree 50 = some t1) :=
  ⟨by decide, by decide, by decide,
    (rotation_preconditions (sampleBook 30)
      (node (sampleBook 10) nil (node (sampleBook 20) nil nil 1) 2) nil 3 (by decide)
      scenarioTree (by decide) (sampleBook 45) 50).2.2⟩

/-- C20: for a tree reachable from the empty tree by `addBook` and
`removeBook` calls, with `n` nodes and root height `h` (the cached height,
which is the height of the shape), `2 ^ (h / 2) <= n + 1`, that is
`h <= 2 * log2 (n + 1) + 1`. -/
theorem height_logarithmic (t : TreeNode) (hr : Reachable t) :
    getHeight t = (height t : Int) ∧ size t = (inorder t).length
      ∧ 2 ^ ((getHeight t).toNat / 2) ≤ size t + 1
      ∧ (getHeight t).toNat ≤ 2 * Nat.log 2 (size t + 1) + 1 := by
  obtain ⟨_, hbal, hk⟩ := reachable_invariants hr
  have e := heightOK_getHeight_eq hk
  have hb := two_pow_half_height_le t hk hbal
  have hlog := Nat.le_log_of_pow_le (by decide) hb
  rw [e, Int.toNat_ofNat]
  refine ⟨rfl, size_eq_length t, hb, ?_⟩
  omega

/-- C20 at `scenarioTree`, which five `addBook` calls build: height 3, five
nodes. -/
theorem height_logarithmic_witness :
    Reachable scenarioTree ∧ getHeight scenarioTree = 3 ∧ size scenarioTree = 5 ∧
      2 ^ ((getHeight scenarioTree).toNat / 2) ≤ size scenarioTree + 1 :=
  ⟨⟨[Op.add 50 "title" "author", Op.add 30 "title" "author", Op.add 70 "title" "author",
      Op.add 20 "title" "author", Op.add 40 "title" "author"], by decide⟩,
    by decide, by decide,
    (height_logarithmic scenarioTree
      ⟨[Op.add 50 "title" "author", Op.add 30 "title" "author", Op.add 70 "title" "author",
        Op.add 20 "title" "author", Op.add 40 "title" "author"], by decide⟩).2.2.1⟩

end AVLTree
